import Mathlib

/-!
Verification of the SourceMod installer merge engine
(`src/sourcemod_installer/__main__.py`).

The script is shallowly embedded over a pure filesystem model: a
filesystem is an association list from paths (lists of components) to
file contents, together with the list of existing directories, both in
traversal order.  The package tree and the target tree are separate
`FS` values, mirroring the fact that the script only reads the package
and only mutates the target.  Fallible filesystem operations
(`shutil.rmtree`, `shutil.copytree`, `shutil.copyfile`) return
`Option FS`, with `none` standing for an uncaught Python exception.
-/

namespace SMInstaller

/-- A filesystem path, as a list of components relative to a root. -/
abbrev FsPath := List String

/-- A filesystem: files (path, contents) and directories, in traversal
order.  The list order of `files` and `dirs` models the order in which
`pathlib` traversal (`rglob`) enumerates entries. -/
structure FS where
  files : List (FsPath × String)
  dirs : List FsPath
deriving DecidableEq

/-- The paths of all files, in traversal order. -/
def FS.filePaths (fs : FS) : List FsPath := fs.files.map Prod.fst

/-- Contents under path `q` in an entry list. -/
def getEntry (fl : List (FsPath × String)) (q : FsPath) : Option String :=
  (fl.find? (fun e => e.1 == q)).map Prod.snd

/-- Contents of the file at `p`, if a file exists there. -/
def FS.getFile (fs : FS) (p : FsPath) : Option String := getEntry fs.files p

/-- Does a file exist at `p`? -/
def FS.isFile (fs : FS) (p : FsPath) : Bool := (fs.getFile p).isSome

/-- Does a directory exist at `p`? -/
def FS.isDir (fs : FS) (p : FsPath) : Bool := fs.dirs.contains p

/-- `pathlib.Path.exists()`: true if a file or a directory is at `p`. -/
def FS.pathExists (fs : FS) (p : FsPath) : Bool := fs.isFile p || fs.isDir p

/-- Well-formedness of a filesystem, as holds for a real disk tree:
every proper prefix of a file path is an existing directory, no path
is both a file and a directory, and file paths and directories are
listed without duplicates. -/
def FS.Wf (fs : FS) : Prop :=
  (∀ e ∈ fs.files, ∀ i ∈ List.range e.1.length, e.1.take i ∈ fs.dirs)
  ∧ (∀ e ∈ fs.files, e.1 ∉ fs.dirs)
  ∧ fs.filePaths.Nodup
  ∧ fs.dirs.Nodup

instance (fs : FS) : Decidable fs.Wf := by
  unfold FS.Wf
  infer_instance

/-- Write contents `c` at path `p` in an entry list: overwrite in place
if the path is present, append otherwise (the position a new directory
entry gets on a real filesystem is modelled as the end of the
traversal). -/
def setEntry : List (FsPath × String) → FsPath → String → List (FsPath × String)
  | [], p, c => [(p, c)]
  | e :: fl, p, c => if e.1 == p then (p, c) :: fl else e :: setEntry fl p c

/-- Write contents `c` at path `p`. -/
def FS.setFile (fs : FS) (p : FsPath) (c : String) : FS :=
  ⟨setEntry fs.files p c, fs.dirs⟩

/-- `shutil.rmtree(p)`: removes the whole subtree rooted at the
directory `p`; raises (`none`) if `p` is not a directory. -/
def rmtree (fs : FS) (p : FsPath) : Option FS :=
  if fs.isDir p then
    some ⟨fs.files.filter (fun e => !(p.isPrefixOf e.1)),
          fs.dirs.filter (fun d => !(p.isPrefixOf d))⟩
  else none

/-- The files of the subtree of `fs` rooted at `root`, as
(relative path, contents) pairs, in traversal order. -/
def subtreeFiles (fs : FS) (root : FsPath) : List (FsPath × String) :=
  fs.files.filterMap
    (fun e => if root.isPrefixOf e.1 then some (e.1.drop root.length, e.2) else none)

/-- The directories of the subtree of `fs` rooted at `root`, as
relative paths (`root` itself appears as `[]` when it is a directory). -/
def subtreeDirs (fs : FS) (root : FsPath) : List FsPath :=
  fs.dirs.filterMap
    (fun d => if root.isPrefixOf d then some (d.drop root.length) else none)

/-- All prefixes of `p`, including `[]` and `p` itself: the directories
`os.makedirs` ensures exist when creating `p`. -/
def ancestors (p : FsPath) : List FsPath :=
  (List.range (p.length + 1)).map (fun i => p.take i)

/-- `shutil.copytree(src_root, dst_root, dirs_exist_ok)` from the
package filesystem `src` into the destination filesystem `dst`:
copies the whole subtree, overwriting same-named destination files.
Raises (`none`) when the source root is not a directory, when the
destination exists and `dirs_exist_ok` is false, or when a file would
be copied over an existing directory or a directory created over an
existing file. -/
def copytree (src : FS) (sroot : FsPath) (dst : FS) (droot : FsPath)
    (dirsExistOk : Bool) : Option FS :=
  if !(src.isDir sroot) then none
  else if !dirsExistOk && dst.pathExists droot then none
  else if (subtreeFiles src sroot).any (fun e => dst.isDir (droot ++ e.1)) then none
  else if (subtreeDirs src sroot).any (fun d => dst.isFile (droot ++ d)) then none
  else some ⟨(subtreeFiles src sroot).foldl
               (fun fl e => setEntry fl (droot ++ e.1) e.2) dst.files,
             dst.dirs ++ ancestors droot
               ++ (subtreeDirs src sroot).map (fun d => droot ++ d)⟩

/-- `shutil.copyfile(p, q)` from the package filesystem `src` to the
destination filesystem `dst`: a plain single-file overwrite.  Raises
(`none`) when the source is not a file, when the destination is a
directory, or when the destination parent directory does not exist. -/
def copyfile (src : FS) (p : FsPath) (dst : FS) (q : FsPath) : Option FS :=
  (src.getFile p).bind (fun c =>
    if dst.isDir q then none
    else if dst.isDir q.dropLast then some (dst.setFile q c)
    else none)

/-! ## Fixed paths and the policy table (lines 178, 196-221) -/

/-- `path_sm = pathlib.Path('addons', 'sourcemod')` (line 178). -/
def smPath : FsPath := ["addons", "sourcemod"]

/-- `args.directory / path_sm / 'plugins'` (line 215). -/
def pluginDir : FsPath := smPath ++ ["plugins"]

/-- `target_plugin_dir / 'disabled'` (line 218). -/
def disabledDir : FsPath := pluginDir ++ ["disabled"]

/-- The elements of the REPLACE policy set literal
`{ ('bin',), ('configs', 'geoip') }` (line 197), each prefixed with
`path_sm` as on line 198.  The list records the entries in the order
they are written in the source; the Python `for` loop iterates the set
in an unspecified (hash-dependent) order, so executions are quantified
over permutations of this list. -/
def replaceSubdirs : List FsPath :=
  [smPath ++ ["bin"], smPath ++ ["configs", "geoip"]]

/-- The elements of the MERGE policy set literal (line 206), prefixed
with `path_sm`; same order caveat as `replaceSubdirs`. -/
def mergeSubdirs : List FsPath :=
  [smPath ++ ["configs", "sql-init-scripts"], smPath ++ ["extensions"],
   smPath ++ ["scripting"], smPath ++ ["translations"]]

/-- One REPLACE policy entry (lines 198-202): delete the destination
subtree when present, then copy the package subtree in with
`dirs_exist_ok=False`, skipping the copy when the package lacks it. -/
def replaceEntry (pkg : FS) (tgt : FS) (sd : FsPath) : Option FS :=
  (if tgt.pathExists sd then rmtree tgt sd else some tgt).bind
    (fun t1 => if pkg.pathExists sd then copytree pkg sd t1 sd false else some t1)

/-- One MERGE policy entry (lines 207-209): copy the package subtree
over the destination with `dirs_exist_ok=True` when the package has
it; silently do nothing otherwise. -/
def mergeEntry (pkg : FS) (tgt : FS) (sd : FsPath) : Option FS :=
  if pkg.pathExists sd then copytree pkg sd tgt sd true else some tgt

/-! ## Plugin routing (lines 214-221) -/

/-- The final component of a path: `pathlib.PurePath.name`. -/
def fileName (p : FsPath) : String := p.getLast?.getD ""

/-- Does a name match the glob pattern `*.smx`, i.e. end in `.smx`? -/
def isSmxName (n : String) : Bool :=
  n.data.reverse.take 4 == ['x', 'm', 's', '.']

/-- `root.rglob("*.smx")`: every entry strictly below `root` whose name
matches `*.smx`, in traversal order (files first, then directories, in
list order — `rglob` also yields matching directories). -/
def smxPaths (fs : FS) (root : FsPath) : List FsPath :=
  (fs.filePaths ++ fs.dirs).filter
    (fun p => root.isPrefixOf p && decide (root.length < p.length)
      && isSmxName (fileName p))

/-- `d[k] = v` on a Python dict represented as an association list:
overwrite in place when the key is present, append otherwise. -/
def dictInsert : List (String × FsPath) → String → FsPath → List (String × FsPath)
  | [], k, v => [(k, v)]
  | e :: rest, k, v =>
    if e.1 == k then (k, v) :: rest else e :: dictInsert rest k v

/-- Python dict lookup. -/
def indexLookup (d : List (String × FsPath)) (k : String) : Option FsPath :=
  (d.find? (fun e => e.1 == k)).map Prod.snd

/-- The Installed-Plugin Index (line 216):
`{ f.name: f.parent for f in target_plugin_dir.rglob("*.smx") }` —
later entries with the same name overwrite earlier ones. -/
def installedPluginIndex (tgt : FS) : List (String × FsPath) :=
  (smxPaths tgt pluginDir).foldl
    (fun d p => dictInsert d (fileName p) p.dropLast) []

/-- `installed_plugins.get(plugin.name, target_plugin_dir / 'disabled')`
(line 218): the destination directory for an incoming plugin name. -/
def routeDest (tgt : FS) (n : String) : FsPath :=
  (indexLookup (installedPluginIndex tgt) n).getD disabledDir

/-- The routing decisions of the plugin loop (lines 217-221): each
package plugin paired with its destination directory. -/
def routePlan (pkg : FS) (tgt : FS) : List (FsPath × FsPath) :=
  (smxPaths pkg pluginDir).map (fun p => (p, routeDest tgt (fileName p)))

/-- One iteration of the plugin loop (lines 218-219): look the name up
in the pre-computed index and copy the single file to the destination. -/
def routeStep (pkg : FS) (idx : List (String × FsPath)) (t : FS) (p : FsPath) :
    Option FS :=
  copyfile pkg p t ((indexLookup idx (fileName p)).getD disabledDir ++ [fileName p])

/-- The whole plugin-routing step (lines 214-221): the index is built
in full from the target before any copy, then every `*.smx` entry of
the package plugins tree is copied to its destination. -/
def routeAll (pkg : FS) (tgt : FS) : Option FS :=
  (smxPaths pkg pluginDir).foldlM (routeStep pkg (installedPluginIndex tgt)) tgt

/-! ## The merge engine of main (lines 178-222) -/

/-- Result of `confirm(LICENSE_PROMPT)` (lines 74-93, 186): `yes` and
`no` for parsed interactive input, `invalid` for a non-interactive
session or unparsable input (Python `None`). -/
inductive Consent
  | yes
  | no
  | invalid
deriving DecidableEq

/-- The post-acquisition body of `main` (lines 178-222) as a function
of the package tree, the target tree, the consent response, the
`--no-upgrade-plugins` flag and the iteration orders of the two policy
set literals.  Returns the final target tree and the process exit
status; `none` models an uncaught exception (a nonzero exit with no
result).  On a first install (target lacks `addons/sourcemod`), the
license file is read, consent is consulted, and either a full
`copytree` into the target runs followed by `sys.exit(0)`, or
`sys.exit(1)` follows with the target untouched.  Otherwise the
REPLACE loop, the MERGE loop and (unless skipped) plugin routing run
in sequence and the script finishes with status 0. -/
def runMain (pkg : FS) (tgt : FS) (c : Consent) (noUpgradePlugins : Bool)
    (ro mo : List FsPath) : Option (FS × Nat) :=
  if !(tgt.pathExists smPath) then
    match pkg.getFile (smPath ++ ["LICENSE.txt"]) with
    | none => none
    | some _ =>
      match c with
      | .yes => (copytree pkg [] tgt [] true).map (fun t => (t, 0))
      | _ => some (tgt, 1)
  else
    (ro.foldlM (replaceEntry pkg) tgt).bind (fun t1 =>
      (mo.foldlM (mergeEntry pkg) t1).bind (fun t2 =>
        if noUpgradePlugins then some (t2, 0)
        else (routeAll pkg t2).map (fun t => (t, 0))))

/-! ## The upgrade-phase operation trace (for ordering claims) -/

/-- A policy-phase operation of the upgrade path. -/
inductive PhaseOp
  | rep (sd : FsPath)
  | mer (sd : FsPath)
  | route
deriving DecidableEq

/-- The order in which the upgrade path of `main` processes policy
entries: the REPLACE loop (lines 197-202) in its set-iteration order
`ro`, then the MERGE loop (lines 206-209) in its set-iteration order
`mo`, then plugin routing (lines 213-221) unless skipped. -/
def upgradeTrace (ro mo : List FsPath) (noUpgradePlugins : Bool) : List PhaseOp :=
  ro.map PhaseOp.rep ++ mo.map PhaseOp.mer
    ++ (if noUpgradePlugins then [] else [PhaseOp.route])

/-- Extract the subpath of a REPLACE operation. -/
def PhaseOp.repPath : PhaseOp → Option FsPath
  | .rep sd => some sd
  | _ => none

/-- Extract the subpath of a MERGE operation. -/
def PhaseOp.merPath : PhaseOp → Option FsPath
  | .mer sd => some sd
  | _ => none

/-- Is this a REPLACE operation? -/
def PhaseOp.isRep : PhaseOp → Bool
  | .rep _ => true
  | _ => false

/-! ## Package acquisition (lines 149-176) -/

/-- The state of the local path named by `--archive`. -/
inductive ArchivePathState
  | absent
  | file
  | dir
  | special
deriving DecidableEq

/-- What the acquisition stage did: whether the network request of
line 161 was issued, and whether a package directory was obtained
(when not, line 176 exits with status 1). -/
structure AcqOutcome where
  usedNetwork : Bool
  gotPackage : Bool
deriving DecidableEq

/-- The acquisition stage (lines 149-176) as a function of the
`--archive` argument: `none` when the flag is absent, otherwise the
state of the named path.  `args.archive and args.archive.exists()`
selects the local branch only when the path exists; an existing
regular file is staged through a temporary copy and an existing
directory is used directly — in both cases without any network
traffic.  An existing path that is neither (`special`) leaves both
`tempname` and `package` unset, so line 176 exits with status 1.  In
every other case — including `--archive` naming an absent path — the
`else` branch downloads the package from the network (the download is
modelled as succeeding). -/
def acquire (archiveArg : Option ArchivePathState) : AcqOutcome :=
  match archiveArg with
  | some .file => ⟨false, true⟩
  | some .dir => ⟨false, true⟩
  | some .special => ⟨false, false⟩
  | some .absent => ⟨true, true⟩
  | none => ⟨true, true⟩

/-! ## Entry-list lemmas -/

theorem getEntry_nil (q : FsPath) : getEntry [] q = none := rfl

theorem getEntry_cons (e : FsPath × String) (fl : List (FsPath × String)) (q : FsPath) :
    getEntry (e :: fl) q = if e.1 = q then some e.2 else getEntry fl q := by
  by_cases h : e.1 = q <;> simp [getEntry, List.find?_cons, h]

theorem getEntry_setEntry_same (fl : List (FsPath × String)) (p : FsPath) (c : String) :
    getEntry (setEntry fl p c) p = some c := by
  induction fl with
  | nil => simp [setEntry, getEntry_cons]
  | cons e fl ih =>
    by_cases h : e.1 = p
    · simp [setEntry, h, getEntry_cons]
    · simp [setEntry, h, getEntry_cons, ih]

theorem getEntry_setEntry_other (fl : List (FsPath × String)) (p : FsPath) (c : String)
    (q : FsPath) (h : q ≠ p) : getEntry (setEntry fl p c) q = getEntry fl q := by
  have h' : p ≠ q := fun hh => h hh.symm
  induction fl with
  | nil => simp [setEntry, getEntry_cons, h']
  | cons e fl ih =>
    by_cases he : e.1 = p
    · simp [setEntry, he, getEntry_cons, h']
    · simp [setEntry, he, getEntry_cons, ih]

theorem setEntry_paths_of_mem (fl : List (FsPath × String)) (p : FsPath) (c : String)
    (h : p ∈ fl.map Prod.fst) :
    (setEntry fl p c).map Prod.fst = fl.map Prod.fst := by
  induction fl with
  | nil => simp at h
  | cons e fl ih =>
    by_cases he : e.1 = p
    · simp [setEntry, he]
    · simp only [List.map_cons, List.mem_cons] at h
      rcases h with h | h

      · exact absurd h.symm he
      · simp [setEntry, he, ih h]

theorem setEntry_paths_of_not_mem (fl : List (FsPath × String)) (p : FsPath) (c : String)
    (h : p ∉ fl.map Prod.fst) :
    (setEntry fl p c).map Prod.fst = fl.map Prod.fst ++ [p] := by
  induction fl with
  | nil => simp [setEntry]
  | cons e fl ih =>
    simp only [List.map_cons, List.mem_cons] at h
    push_neg at h
    have h1 : e.1 ≠ p := fun hh => h.1 hh.symm
    simp [setEntry, h1, ih h.2]

/-- Applying a list of writes in order. -/
def applyWrites (fl : List (FsPath × String)) (ws : List (FsPath × String)) :
    List (FsPath × String) :=
  ws.foldl (fun fl e => setEntry fl e.1 e.2) fl

theorem getEntry_applyWrites (ws fl : List (FsPath × String)) (q : FsPath) :
    getEntry (applyWrites fl ws) q =
      match ws.reverse.find? (fun e => e.1 == q) with
      | some e => some e.2
      | none => getEntry fl q := by
  induction ws generalizing fl with
  | nil => simp [applyWrites]
  | cons w ws ih =>
    have hstep : applyWrites fl (w :: ws) = applyWrites (setEntry fl w.1 w.2) ws := rfl
    rw [hstep, ih, List.reverse_cons, List.find?_append]
    cases hf : ws.reverse.find? (fun e => e.1 == q) with
    | some e => simp [Option.or]
    | none =>
      simp only [Option.or, List.find?_cons, List.find?_nil]
      by_cases hq : w.1 = q
      · subst hq
        simp [getEntry_setEntry_same]
      · have : (w.1 == q) = false := by simp [hq]
        simp [this, getEntry_setEntry_other _ _ _ _ (fun hh => hq hh.symm)]

theorem applyWrites_paths_of_mem (fl : List (FsPath × String))
    (ws : List (FsPath × String)) (h : ∀ w ∈ ws, w.1 ∈ fl.map Prod.fst) :
    (applyWrites fl ws).map Prod.fst = fl.map Prod.fst := by
  induction ws generalizing fl with
  | nil => rfl
  | cons w ws ih =>
    have hstep : applyWrites fl (w :: ws) = applyWrites (setEntry fl w.1 w.2) ws := rfl
    rw [hstep, ih]
    · exact setEntry_paths_of_mem _ _ _ (h w (by simp))
    · intro x hx
      rw [setEntry_paths_of_mem _ _ _ (h w (by simp))]
      exact h x (by simp [hx])

/-! ## Filesystem lemmas -/

theorem FS.isDir_iff_mem (fs : FS) (p : FsPath) : fs.isDir p = true ↔ p ∈ fs.dirs :=
  List.elem_iff

theorem FS.isDir_eq_false_iff (fs : FS) (p : FsPath) :
    fs.isDir p = false ↔ p ∉ fs.dirs := by
  rw [← Bool.not_eq_true, not_iff_not]
  exact fs.isDir_iff_mem p

theorem FS.getFile_isSome_of_mem (fs : FS) (e : FsPath × String) (h : e ∈ fs.files) :
    (fs.getFile e.1).isSome = true := by
  rw [FS.getFile, getEntry]
  have hf : (fs.files.find? (fun x => x.1 == e.1)).isSome = true :=
    List.find?_isSome.2 ⟨e, h, beq_self_eq_true e.1⟩
  cases hx : fs.files.find? (fun x => x.1 == e.1) with
  | none => rw [hx] at hf; simp at hf
  | some a => rfl

theorem FS.mem_of_getFile_eq_some (fs : FS) (p : FsPath) (c : String)
    (h : fs.getFile p = some c) : (p, c) ∈ fs.files := by
  simp only [FS.getFile, getEntry, Option.map_eq_some'] at h
  obtain ⟨e, he, hc⟩ := h
  have hm := List.mem_of_find?_eq_some he
  have hp := List.find?_some he
  have : e.1 = p := by simpa using hp
  have : e = (p, c) := by
    cases e
    simp only [Prod.mk.injEq]
    exact ⟨this, hc⟩
  rwa [this] at hm

theorem getEntry_eq_some_of_mem (fl : List (FsPath × String)) (p : FsPath) (c : String)
    (hn : (fl.map Prod.fst).Nodup) (h : (p, c) ∈ fl) : getEntry fl p = some c := by
  induction fl with
  | nil => simp at h
  | cons e fl ih =>
    simp only [List.map_cons, List.nodup_cons] at hn
    rcases List.mem_cons.1 h with he | hm
    · rw [← he, getEntry_cons]
      simp
    · rw [getEntry_cons]
      have hne : e.1 ≠ p := by
        intro hh
        exact hn.1 (hh ▸ List.mem_map_of_mem Prod.fst hm)
      simp [hne, ih hn.2 hm]

theorem FS.getFile_eq_some_of_mem (fs : FS) (p : FsPath) (c : String)
    (hn : fs.filePaths.Nodup) (h : (p, c) ∈ fs.files) : fs.getFile p = some c :=
  getEntry_eq_some_of_mem fs.files p c hn h

theorem FS.Wf.nodupPaths {fs : FS} (h : fs.Wf) : fs.filePaths.Nodup := h.2.2.1

theorem FS.Wf.getFile_eq_none_of_isDir {fs : FS} (hwf : fs.Wf) (p : FsPath)
    (h : p ∈ fs.dirs) : fs.getFile p = none := by
  cases hg : fs.getFile p with
  | none => rfl
  | some c =>
    have hm := fs.mem_of_getFile_eq_some p c hg
    exact absurd h (hwf.2.1 (p, c) hm)

theorem FS.Wf.no_file_under_of_not_exists {fs : FS} (hwf : fs.Wf) (sd : FsPath)
    (h : fs.pathExists sd = false) (rest : FsPath) :
    fs.getFile (sd ++ rest) = none := by
  simp only [FS.pathExists, Bool.or_eq_false_iff] at h
  obtain ⟨h1, h2⟩ := h
  cases rest with
  | nil =>
    simp only [List.append_nil]
    cases hg : fs.getFile sd with
    | none => rfl
    | some c =>
      rw [FS.isFile, hg] at h1
      simp at h1
  | cons a rest =>
    cases hg : fs.getFile (sd ++ a :: rest) with
    | none => rfl
    | some c =>
      have hm := fs.mem_of_getFile_eq_some _ c hg
      have hsd : sd ∈ fs.dirs := by
        have := hwf.1 (sd ++ a :: rest, c) hm sd.length
          (by simp [List.mem_range])
        simpa [List.take_left] using this
      have : fs.isDir sd = true := (fs.isDir_iff_mem sd).2 hsd
      rw [this] at h2
      exact absurd h2 (by simp)

/-! ## rmtree lemmas -/

theorem rmtree_eq_some (fs : FS) (p : FsPath) (t1 : FS) (h : rmtree fs p = some t1) :
    fs.isDir p = true
    ∧ t1.files = fs.files.filter (fun e => !(p.isPrefixOf e.1))
    ∧ t1.dirs = fs.dirs.filter (fun d => !(p.isPrefixOf d)) := by
  unfold rmtree at h
  split at h
  · rename_i hd
    refine ⟨hd, ?_, ?_⟩ <;> cases h <;> rfl
  · exact absurd h (by simp)

theorem getEntry_filter_keep (fl : List (FsPath × String)) (f : FsPath × String → Bool)
    (q : FsPath) (hq : ∀ e : FsPath × String, e.1 = q → f e = true) :
    getEntry (fl.filter f) q = getEntry fl q := by
  induction fl with
  | nil => rfl
  | cons e fl ih =>
    by_cases he : e.1 = q
    · rw [List.filter_cons, hq e he]
      simp [getEntry_cons, he, ih]
    · rw [List.filter_cons]
      by_cases hf : f e = true
      · simp [hf, getEntry_cons, he, ih]
      · simp only [Bool.not_eq_true] at hf
        simp [hf, getEntry_cons, he, ih]

theorem getEntry_filter_drop (fl : List (FsPath × String)) (f : FsPath × String → Bool)
    (q : FsPath) (hq : ∀ e : FsPath × String, e.1 = q → f e = false) :
    getEntry (fl.filter f) q = none := by
  simp only [getEntry, Option.map_eq_none']
  rw [List.find?_eq_none]
  intro e he
  have := List.mem_filter.1 he
  intro hb
  have heq : e.1 = q := by simpa using hb
  rw [hq e heq] at this
  exact absurd this.2 (by simp)

theorem rmtree_getFile (fs : FS) (p : FsPath) (t1 : FS) (h : rmtree fs p = some t1)
    (q : FsPath) :
    t1.getFile q = if p.isPrefixOf q then none else fs.getFile q := by
  obtain ⟨-, hf, -⟩ := rmtree_eq_some fs p t1 h
  by_cases hpq : p.isPrefixOf q = true
  · rw [if_pos hpq, FS.getFile, hf]
    exact getEntry_filter_drop _ _ _ (fun e he => by simp [he, hpq])
  · rw [if_neg hpq, FS.getFile, hf, FS.getFile]
    exact getEntry_filter_keep _ _ _ (fun e he => by
      simp only [Bool.not_eq_true] at hpq
      simp [he, hpq])

/-! ## copytree lemmas -/

theorem mem_subtreeFiles (src : FS) (sroot : FsPath) (r : FsPath) (c : String) :
    (r, c) ∈ subtreeFiles src sroot ↔ (sroot ++ r, c) ∈ src.files := by
  simp only [subtreeFiles, List.mem_filterMap]
  constructor
  · rintro ⟨e, he, hif⟩
    by_cases hp : sroot.isPrefixOf e.1 = true
    · rw [if_pos hp] at hif
      obtain ⟨t, ht⟩ := List.isPrefixOf_iff_prefix.1 hp
      injection hif with hif
      have h1 : e.1.drop sroot.length = r := congrArg Prod.fst hif
      have h2 : e.2 = c := congrArg Prod.snd hif
      have ht' : e.1 = sroot ++ t := ht.symm
      rw [ht', List.drop_left] at h1
      have h3 : e.1 = sroot ++ r := by rw [ht', h1]
      have he' : e = (sroot ++ r, c) := Prod.ext h3 h2
      rwa [he'] at he
    · rw [if_neg hp] at hif
      exact absurd hif (by simp)
  · intro hmem
    refine ⟨(sroot ++ r, c), hmem, ?_⟩
    have hp : sroot.isPrefixOf (sroot ++ r) = true :=
      List.isPrefixOf_iff_prefix.2 (List.prefix_append sroot r)
    rw [if_pos hp, List.drop_left]

theorem copytree_eq_some (src : FS) (sroot : FsPath) (dst : FS) (droot : FsPath)
    (ok : Bool) (t' : FS) (h : copytree src sroot dst droot ok = some t') :
    src.isDir sroot = true
    ∧ t'.files = applyWrites dst.files
        ((subtreeFiles src sroot).map (fun e => (droot ++ e.1, e.2)))
    ∧ t'.dirs = dst.dirs ++ ancestors droot
        ++ (subtreeDirs src sroot).map (fun d => droot ++ d) := by
  unfold copytree at h
  split at h
  · exact absurd h (by simp)
  · split at h
    · exact absurd h (by simp)
    · split at h
      · exact absurd h (by simp)
      · split at h
        · exact absurd h (by simp)
        · rename_i h1 h2 h3 h4
          cases h
          refine ⟨by simpa using h1, ?_, rfl⟩
          rw [applyWrites, List.foldl_map]

theorem copytree_getFile (src : FS) (sroot : FsPath) (dst : FS) (droot : FsPath)
    (ok : Bool) (t' : FS) (h : copytree src sroot dst droot ok = some t') (q : FsPath) :
    t'.getFile q =
      match ((subtreeFiles src sroot).map
          (fun e => (droot ++ e.1, e.2))).reverse.find? (fun e => e.1 == q) with
      | some e => some e.2
      | none => dst.getFile q := by
  obtain ⟨-, hf, -⟩ := copytree_eq_some src sroot dst droot ok t' h
  rw [FS.getFile, hf, getEntry_applyWrites]
  cases hx : ((subtreeFiles src sroot).map
      (fun e => (droot ++ e.1, e.2))).reverse.find? (fun e => e.1 == q) <;> rfl

theorem find?_entry_eq (ws : List (FsPath × String)) (q : FsPath) (c : String)
    (hm : (q, c) ∈ ws) (hu : ∀ e ∈ ws, e.1 = q → e.2 = c) :
    ws.find? (fun e => e.1 == q) = some (q, c) := by
  induction ws with
  | nil => simp at hm
  | cons e ws ih =>
    by_cases he : e.1 = q
    · have hc : e.2 = c := hu e (by simp) he
      have : e = (q, c) := by
        cases e
        simp only [Prod.mk.injEq]
        exact ⟨he, hc⟩
      simp [List.find?_cons, this]
    · have hm' : (q, c) ∈ ws := by
        rcases List.mem_cons.1 hm with hh | hh
        · exact absurd (congrArg Prod.fst hh.symm) he
        · exact hh
      have hb : (e.1 == q) = false := by simp [he]
      simp [List.find?_cons, hb, ih hm' (fun x hx => hu x (by simp [hx]))]

theorem copytree_getFile_src (src : FS) (sroot : FsPath) (dst : FS) (droot : FsPath)
    (ok : Bool) (t' : FS) (h : copytree src sroot dst droot ok = some t')
    (hn : src.filePaths.Nodup) (rest : FsPath) (c : String)
    (hc : src.getFile (sroot ++ rest) = some c) :
    t'.getFile (droot ++ rest) = some c := by
  rw [copytree_getFile src sroot dst droot ok t' h (droot ++ rest)]
  have hmem : ((droot ++ rest, c) : FsPath × String) ∈
      ((subtreeFiles src sroot).map (fun e => (droot ++ e.1, e.2))).reverse := by
    rw [List.mem_reverse]
    have : ((rest, c) : FsPath × String) ∈ subtreeFiles src sroot :=
      (mem_subtreeFiles src sroot rest c).2 (src.mem_of_getFile_eq_some _ c hc)
    exact List.mem_map_of_mem _ this
  have huniq : ∀ e ∈ ((subtreeFiles src sroot).map
      (fun e => (droot ++ e.1, e.2))).reverse, e.1 = droot ++ rest → e.2 = c := by
    intro e he h1
    rw [List.mem_reverse, List.mem_map] at he
    obtain ⟨a, ha, hae⟩ := he
    have ha1 : droot ++ a.1 = droot ++ rest := by rw [← h1, ← hae]
    have ha1' : a.1 = rest := List.append_cancel_left ha1
    have : (sroot ++ rest, a.2) ∈ src.files := by
      have := (mem_subtreeFiles src sroot a.1 a.2).1 (by
        have : a = (a.1, a.2) := rfl
        rwa [← this])
      rwa [ha1'] at this
    have := src.getFile_eq_some_of_mem _ a.2 hn this
    rw [hc] at this
    have h2 : e.2 = a.2 := by rw [← hae]
    rw [h2]
    exact (Option.some.injEq _ _ ▸ this).symm
  rw [find?_entry_eq _ _ c hmem huniq]

theorem copytree_getFile_untouched (src : FS) (sroot : FsPath) (dst : FS)
    (droot : FsPath) (ok : Bool) (t' : FS)
    (h : copytree src sroot dst droot ok = some t') (q : FsPath)
    (hq : ∀ rest, q = droot ++ rest → src.getFile (sroot ++ rest) = none) :
    t'.getFile q = dst.getFile q := by
  rw [copytree_getFile src sroot dst droot ok t' h q]
  cases hf : ((subtreeFiles src sroot).map
      (fun e => (droot ++ e.1, e.2))).reverse.find? (fun e => e.1 == q) with
  | none => rfl
  | some e =>
    have hm := List.mem_of_find?_eq_some hf
    have hp := List.find?_some hf
    have he1 : e.1 = q := by simpa using hp
    rw [List.mem_reverse, List.mem_map] at hm
    obtain ⟨a, ha, hae⟩ := hm
    have hq1 : q = droot ++ a.1 := by rw [← he1, ← hae]
    have hnone := hq a.1 hq1
    have : (sroot ++ a.1, a.2) ∈ src.files := by
      have h' : a = (a.1, a.2) := rfl
      exact (mem_subtreeFiles src sroot a.1 a.2).1 (h' ▸ ha)
    have hsome := src.getFile_isSome_of_mem (sroot ++ a.1, a.2) this
    rw [show ((sroot ++ a.1, a.2) : FsPath × String).1 = sroot ++ a.1 from rfl,
      hnone] at hsome
    simp at hsome

/-! ## copyfile lemmas -/

theorem copyfile_eq_some (src : FS) (p : FsPath) (dst : FS) (q : FsPath) (d' : FS)
    (h : copyfile src p dst q = some d') :
    ∃ c, src.getFile p = some c ∧ dst.isDir q = false
      ∧ dst.isDir q.dropLast = true ∧ d' = dst.setFile q c := by
  unfold copyfile at h
  cases hg : src.getFile p with
  | none => rw [hg] at h; exact absurd h (by simp)
  | some c =>
    rw [hg] at h
    rw [Option.some_bind] at h
    split at h
    · exact absurd h (by simp)
    · split at h
      · rename_i h1 h2
        refine ⟨c, rfl, by simpa using h1, h2, ?_⟩
        injection h with h
        exact h.symm
      · exact absurd h (by simp)

/-! ## Plugin-index lemmas -/

theorem indexLookup_nil (k : String) : indexLookup [] k = none := rfl

theorem indexLookup_dictInsert (d : List (String × FsPath)) (k' k : String) (v : FsPath) :
    indexLookup (dictInsert d k' v) k =
      if k' = k then some v else indexLookup d k := by
  induction d with
  | nil =>
    by_cases hk : k' = k <;> simp [dictInsert, indexLookup, List.find?_cons, hk]
  | cons e d ih =>
    by_cases he : e.1 = k'
    · rw [dictInsert]
      simp only [he, beq_self_eq_true, if_true]
      by_cases hk : k' = k
      · simp [indexLookup, List.find?_cons, hk]
      · have : (k' == k) = false := by simp [hk]
        simp [indexLookup, List.find?_cons, this, hk, he]
    · rw [dictInsert]
      have hb : (e.1 == k') = false := by simp [he]
      simp only [hb, Bool.false_eq_true, if_false]
      by_cases hek : e.1 = k
      · simp [indexLookup, List.find?_cons, hek]
        by_cases hk : k' = k
        · exact absurd (hk ▸ hek) he
        · simp [hk]
      · have hb2 : (e.1 == k) = false := by simp [hek]
        simp only [indexLookup, List.find?_cons, hb2, Bool.false_eq_true, if_false]
        exact ih

theorem indexLookup_foldInsert (L : List FsPath) (d : List (String × FsPath))
    (k : String) :
    indexLookup (L.foldl (fun d p => dictInsert d (fileName p) p.dropLast) d) k =
      match L.reverse.find? (fun p => fileName p == k) with
      | some e => some e.dropLast
      | none => indexLookup d k := by
  induction L generalizing d with
  | nil => simp
  | cons p L ih =>
    have hstep : (p :: L).foldl (fun d p => dictInsert d (fileName p) p.dropLast) d
        = L.foldl (fun d p => dictInsert d (fileName p) p.dropLast)
            (dictInsert d (fileName p) p.dropLast) := rfl
    rw [hstep, ih, List.reverse_cons, List.find?_append]
    cases hf : L.reverse.find? (fun p => fileName p == k) with
    | some e => simp [Option.or]
    | none =>
      simp only [Option.or, List.find?_cons, List.find?_nil]
      by_cases hk : fileName p = k
      · simp [hk, indexLookup_dictInsert]
      · have hb : (fileName p == k) = false := by simp [hk]
        simp [hb, indexLookup_dictInsert, hk]

theorem installedPluginIndex_lookup (tgt : FS) (k : String) :
    indexLookup (installedPluginIndex tgt) k =
      ((smxPaths tgt pluginDir).reverse.find?
        (fun p => fileName p == k)).map List.dropLast := by
  rw [installedPluginIndex, indexLookup_foldInsert]
  cases hf : (smxPaths tgt pluginDir).reverse.find? (fun p => fileName p == k) <;> rfl

/-- Every path enumerated by `rglob` is strictly below the root and has
a matching name; it is a file path or a directory of the filesystem. -/
theorem mem_smxPaths (fs : FS) (root : FsPath) (p : FsPath)
    (h : p ∈ smxPaths fs root) :
    (p ∈ fs.filePaths ∨ p ∈ fs.dirs)
    ∧ root.isPrefixOf p = true ∧ root.length < p.length
    ∧ isSmxName (fileName p) = true := by
  rw [smxPaths, List.mem_filter] at h
  obtain ⟨hm, hp⟩ := h
  simp only [Bool.and_eq_true, decide_eq_true_eq] at hp
  exact ⟨List.mem_append.1 hm, hp.1.1, hp.1.2, hp.2⟩

theorem smxPaths_nonnil (fs : FS) (root : FsPath) (p : FsPath)
    (h : p ∈ smxPaths fs root) : p ≠ [] := by
  intro hp
  have := (mem_smxPaths fs root p h).2.2.1
  rw [hp] at this
  simp at this

/-- A path strictly below a root, re-assembled from its parent
directory and its name. -/
theorem dropLast_fileName (p : FsPath) (h : p ≠ []) :
    p.dropLast ++ [fileName p] = p := by
  rw [fileName, List.getLast?_eq_getLast p h]
  simp [List.dropLast_append_getLast]

theorem fileName_concat (l : FsPath) (n : String) : fileName (l ++ [n]) = n := by
  rw [fileName, List.getLast?_concat]
  rfl

theorem concat_last_eq (a b : FsPath) (x y : String) (h : a ++ [x] = b ++ [y]) :
    x = y := by
  have := congrArg List.getLast? h
  rw [List.getLast?_concat, List.getLast?_concat] at this
  injection this

/-! ## Plugin-routing fold lemmas -/

theorem FS.setFile_dirs (fs : FS) (p : FsPath) (c : String) :
    (fs.setFile p c).dirs = fs.dirs := rfl

theorem FS.setFile_filePaths_of_mem (fs : FS) (p : FsPath) (c : String)
    (h : p ∈ fs.filePaths) : (fs.setFile p c).filePaths = fs.filePaths :=
  setEntry_paths_of_mem fs.files p c h

theorem FS.setFile_filePaths_of_not_mem (fs : FS) (p : FsPath) (c : String)
    (h : p ∉ fs.filePaths) : (fs.setFile p c).filePaths = fs.filePaths ++ [p] :=
  setEntry_paths_of_not_mem fs.files p c h

/-- Structure of a successful plugin-copy fold: directories are never
touched, the file-path list only grows by entries appended under
`plugins/disabled` for names absent from the index, every processed
plugin with an unindexed name ends up with a file under `disabled`,
and processing any unindexed name requires the `disabled` directory to
exist beforehand. -/
theorem routeFold_spec (pkg : FS) (idx : List (String × FsPath)) (L : List FsPath)
    (t t' : FS)
    (hsmx : ∀ p ∈ L, isSmxName (fileName p) = true)
    (hidx : ∀ n d, indexLookup idx n = some d →
      (d ++ [n]) ∈ t.filePaths ∨ (d ++ [n]) ∈ t.dirs)
    (h : L.foldlM (routeStep pkg idx) t = some t') :
    t'.dirs = t.dirs
    ∧ (∃ app, t'.filePaths = t.filePaths ++ app
        ∧ ∀ q ∈ app, q = disabledDir ++ [fileName q]
            ∧ indexLookup idx (fileName q) = none
            ∧ isSmxName (fileName q) = true)
    ∧ (∀ p ∈ L, indexLookup idx (fileName p) = none →
        (disabledDir ++ [fileName p]) ∈ t'.filePaths)
    ∧ ((∃ p ∈ L, indexLookup idx (fileName p) = none) → disabledDir ∈ t.dirs) := by
  induction L generalizing t with
  | nil =>
    have h' : some t = some t' := h
    cases h'
    exact ⟨rfl, ⟨[], by simp, by simp⟩, by simp, by simp⟩
  | cons p L ih =>
    rw [List.foldlM_cons] at h
    cases hstep : routeStep pkg idx t p with
    | none => rw [hstep] at h; exact absurd h (by simp)
    | some t1 =>
      rw [hstep] at h
      have h' : L.foldlM (routeStep pkg idx) t1 = some t' := h
      obtain ⟨c, hcsrc, hqnotdir, hqparent, ht1⟩ :=
        copyfile_eq_some pkg p t
          ((indexLookup idx (fileName p)).getD disabledDir ++ [fileName p]) t1 hstep
      subst ht1
      have hsmx' : ∀ r ∈ L, isSmxName (fileName r) = true :=
        fun r hr => hsmx r (List.mem_cons_of_mem p hr)
      cases hlk : indexLookup idx (fileName p) with
      | some d =>
        simp only [hlk, Option.getD_some] at hqnotdir hqparent h'
        have hmem : (d ++ [fileName p]) ∈ t.filePaths := by
          rcases hidx (fileName p) d hlk with hm | hm
          · exact hm
          · rw [FS.isDir_eq_false_iff] at hqnotdir
            exact absurd hm hqnotdir
        have hfp : (t.setFile (d ++ [fileName p]) c).filePaths = t.filePaths :=
          t.setFile_filePaths_of_mem _ c hmem
        have hdd : (t.setFile (d ++ [fileName p]) c).dirs = t.dirs := rfl
        have hidx' : ∀ n d', indexLookup idx n = some d' →
            (d' ++ [n]) ∈ (t.setFile (d ++ [fileName p]) c).filePaths
            ∨ (d' ++ [n]) ∈ (t.setFile (d ++ [fileName p]) c).dirs := by
          intro n d' hl
          rw [hfp, hdd]
          exact hidx n d' hl
        obtain ⟨hd1, ⟨app, happ, hspec⟩, h3, h4⟩ := ih _ hsmx' hidx' h'
        refine ⟨by rw [hd1, hdd], ⟨app, by rw [happ, hfp], hspec⟩, ?_, ?_⟩
        · intro r hr hnone
          rcases List.mem_cons.1 hr with hh | hh
          · rw [hh] at hnone
            rw [hnone] at hlk
            exact absurd hlk (by simp)
          · exact h3 r hh hnone
        · rintro ⟨r, hr, hnone⟩
          rcases List.mem_cons.1 hr with hh | hh
          · rw [hh] at hnone
            rw [hnone] at hlk
            exact absurd hlk (by simp)
          · have := h4 ⟨r, hh, hnone⟩
            rwa [hdd] at this
      | none =>
        simp only [hlk, Option.getD_none] at hqnotdir hqparent h'
        have hdisab : disabledDir ∈ t.dirs := by
          rw [List.dropLast_concat] at hqparent
          exact (t.isDir_iff_mem disabledDir).1 hqparent
        by_cases hqmem : (disabledDir ++ [fileName p]) ∈ t.filePaths
        · have hfp : (t.setFile (disabledDir ++ [fileName p]) c).filePaths
              = t.filePaths := t.setFile_filePaths_of_mem _ c hqmem
          have hdd : (t.setFile (disabledDir ++ [fileName p]) c).dirs = t.dirs := rfl
          have hidx' : ∀ n d', indexLookup idx n = some d' →
              (d' ++ [n]) ∈ (t.setFile (disabledDir ++ [fileName p]) c).filePaths
              ∨ (d' ++ [n]) ∈ (t.setFile (disabledDir ++ [fileName p]) c).dirs := by
            intro n d' hl
            rw [hfp, hdd]
            exact hidx n d' hl
          obtain ⟨hd1, ⟨app, happ, hspec⟩, h3, h4⟩ := ih _ hsmx' hidx' h'
          refine ⟨by rw [hd1, hdd], ⟨app, by rw [happ, hfp], hspec⟩, ?_,
            fun _ => hdisab⟩
          intro r hr hnone
          rcases List.mem_cons.1 hr with hh | hh
          · rw [hh]
            rw [happ, hfp]
            exact List.mem_append_left app hqmem
          · exact h3 r hh hnone
        · have hfp : (t.setFile (disabledDir ++ [fileName p]) c).filePaths
              = t.filePaths ++ [disabledDir ++ [fileName p]] :=
            t.setFile_filePaths_of_not_mem _ c hqmem
          have hdd : (t.setFile (disabledDir ++ [fileName p]) c).dirs = t.dirs := rfl
          have hidx' : ∀ n d', indexLookup idx n = some d' →
              (d' ++ [n]) ∈ (t.setFile (disabledDir ++ [fileName p]) c).filePaths
              ∨ (d' ++ [n]) ∈ (t.setFile (disabledDir ++ [fileName p]) c).dirs := by
            intro n d' hl
            rw [hfp, hdd]
            rcases hidx n d' hl with hm | hm
            · exact Or.inl (List.mem_append_left _ hm)
            · exact Or.inr hm
          obtain ⟨hd1, ⟨app, happ, hspec⟩, h3, h4⟩ := ih _ hsmx' hidx' h'
          refine ⟨by rw [hd1, hdd],
            ⟨(disabledDir ++ [fileName p]) :: app, ?_, ?_⟩, ?_, fun _ => hdisab⟩
          · rw [happ, hfp, List.append_assoc]
            rfl
          · intro x hx
            rcases List.mem_cons.1 hx with hh | hh
            · subst hh
              rw [fileName_concat]
              exact ⟨rfl, hlk, hsmx p (by simp)⟩
            · exact hspec x hh
          · intro r hr hnone
            rcases List.mem_cons.1 hr with hh | hh
            · rw [hh]
              rw [happ, hfp]
              refine List.mem_append_left app ?_
              exact List.mem_append_right _ (by simp)
            · exact h3 r hh hnone

/-- Paths other than the planned destinations are untouched by the
plugin-copy fold. -/
theorem routeFold_locality (pkg : FS) (idx : List (String × FsPath)) (L : List FsPath)
    (t t' : FS) (h : L.foldlM (routeStep pkg idx) t = some t') (q : FsPath)
    (hq : ∀ p ∈ L, q ≠ (indexLookup idx (fileName p)).getD disabledDir ++ [fileName p]) :
    t'.getFile q = t.getFile q := by
  induction L generalizing t with
  | nil =>
    have h' : some t = some t' := h
    cases h'
    rfl
  | cons p L ih =>
    rw [List.foldlM_cons] at h
    cases hstep : routeStep pkg idx t p with
    | none => rw [hstep] at h; exact absurd h (by simp)
    | some t1 =>
      rw [hstep] at h
      have h' : L.foldlM (routeStep pkg idx) t1 = some t' := h
      obtain ⟨c, hcsrc, hqnotdir, hqparent, ht1⟩ :=
        copyfile_eq_some pkg p t
          ((indexLookup idx (fileName p)).getD disabledDir ++ [fileName p]) t1 hstep
      subst ht1
      rw [ih _ h' (fun r hr => hq r (List.mem_cons_of_mem p hr))]
      exact getEntry_setEntry_other t.files _ c q (hq p (by simp))

/-- The final contents at the destination of a plugin whose name occurs
only once in the processed list are the package contents of that
plugin. -/
theorem routeFold_content (pkg : FS) (idx : List (String × FsPath)) (L : List FsPath)
    (t t' : FS) (h : L.foldlM (routeStep pkg idx) t = some t') (p : FsPath)
    (hp : p ∈ L) (huniq : ∀ r ∈ L, fileName r = fileName p → r = p) :
    t'.getFile ((indexLookup idx (fileName p)).getD disabledDir ++ [fileName p])
      = pkg.getFile p := by
  induction L generalizing t with
  | nil => simp at hp
  | cons r L ih =>
    rw [List.foldlM_cons] at h
    cases hstep : routeStep pkg idx t r with
    | none => rw [hstep] at h; exact absurd h (by simp)
    | some t1 =>
      rw [hstep] at h
      have h' : L.foldlM (routeStep pkg idx) t1 = some t' := h
      obtain ⟨c, hcsrc, hqnotdir, hqparent, ht1⟩ :=
        copyfile_eq_some pkg r t
          ((indexLookup idx (fileName r)).getD disabledDir ++ [fileName r]) t1 hstep
      subst ht1
      by_cases hrp : r = p
      · subst hrp
        by_cases hpL : r ∈ L
        · exact ih _ h' hpL (fun x hx hfx => huniq x (List.mem_cons_of_mem r hx) hfx)
        · have hloc : ∀ x ∈ L,
              ((indexLookup idx (fileName r)).getD disabledDir ++ [fileName r])
              ≠ (indexLookup idx (fileName x)).getD disabledDir ++ [fileName x] := by
            intro x hx heq
            have hfeq : fileName r = fileName x := concat_last_eq _ _ _ _ heq
            have := huniq x (List.mem_cons_of_mem r hx) hfeq.symm
            rw [this] at hx
            exact hpL hx
          rw [routeFold_locality pkg idx L _ t' h' _ hloc]
          rw [FS.getFile]
          show getEntry (setEntry t.files _ c) _ = pkg.getFile r
          rw [getEntry_setEntry_same, hcsrc]
      · have hpL : p ∈ L := by
          rcases List.mem_cons.1 hp with hh | hh
          · exact absurd hh.symm hrp
          · exact hh
        exact ih _ h' hpL (fun x hx hfx => huniq x (List.mem_cons_of_mem r hx) hfx)

/-! ## Supporting lemmas for the claims -/

theorem isPrefixOf_append (sd rest : FsPath) : sd.isPrefixOf (sd ++ rest) = true :=
  List.isPrefixOf_iff_prefix.2 (List.prefix_append sd rest)

theorem exists_rest_of_isPrefixOf (sd q : FsPath) (h : sd.isPrefixOf q = true) :
    ∃ rest, q = sd ++ rest := by
  obtain ⟨t, ht⟩ := List.isPrefixOf_iff_prefix.1 h
  exact ⟨t, ht.symm⟩

/-- A hit in the Installed-Plugin Index comes from an enumerated entry
of the target plugins tree with that name, whose recorded directory is
its parent. -/
theorem installedIndex_some (tgt : FS) (n : String) (d : FsPath)
    (h : indexLookup (installedPluginIndex tgt) n = some d) :
    ∃ e ∈ smxPaths tgt pluginDir, fileName e = n ∧ e.dropLast = d := by
  rw [installedPluginIndex_lookup] at h
  obtain ⟨e, he, hd⟩ := Option.map_eq_some'.1 h
  have hmem := List.mem_of_find?_eq_some he
  have hname : fileName e = n := by simpa using List.find?_some he
  rw [List.mem_reverse] at hmem
  exact ⟨e, hmem, hname, hd⟩

/-- A miss in the Installed-Plugin Index means no enumerated entry of
the target plugins tree has that name. -/
theorem installedIndex_none (tgt : FS) (n : String)
    (h : indexLookup (installedPluginIndex tgt) n = none) :
    ∀ e ∈ smxPaths tgt pluginDir, fileName e ≠ n := by
  rw [installedPluginIndex_lookup, Option.map_eq_none'] at h
  intro e he hn
  have := List.find?_eq_none.1 h e (List.mem_reverse.2 he)
  simp [hn] at this

/-- The recorded path of an index hit, re-assembled, is a file path or
a directory of the target. -/
theorem installedIndex_mem (tgt : FS) (n : String) (d : FsPath)
    (h : indexLookup (installedPluginIndex tgt) n = some d) :
    (d ++ [n]) ∈ tgt.filePaths ∨ (d ++ [n]) ∈ tgt.dirs := by
  obtain ⟨e, hmem, hname, hd⟩ := installedIndex_some tgt n d h
  have hnn : e ≠ [] := smxPaths_nonnil tgt pluginDir e hmem
  have he : d ++ [n] = e := by
    rw [← hd, ← hname]
    exact dropLast_fileName e hnn
  rw [he]
  exact (mem_smxPaths tgt pluginDir e hmem).1

/-- Reduction of `runMain` on the first-install branch when the
license file is readable. -/
theorem runMain_first_install (pkg tgt : FS) (c : Consent) (f : Bool)
    (ro mo : List FsPath) (h1 : tgt.pathExists smPath = false) (s : String)
    (hs : pkg.getFile (smPath ++ ["LICENSE.txt"]) = some s) :
    runMain pkg tgt c f ro mo =
      match c with
      | .yes => (copytree pkg [] tgt [] true).map (fun t => (t, 0))
      | _ => some (tgt, 1) := by
  unfold runMain
  rw [h1, hs]
  cases c <;> rfl

/-! ## Concrete example filesystems -/

/-- An example package tree: license, binaries, geoip data, a
scripting source, and two plugins at the top level of `plugins/`. -/
def pkgEx : FS :=
  ⟨[(smPath ++ ["LICENSE.txt"], "license"),
    (smPath ++ ["bin", "sourcemod.dll"], "newbin"),
    (smPath ++ ["configs", "geoip", "geo.dat"], "newgeo"),
    (smPath ++ ["scripting", "myplugin.sp"], "src"),
    (pluginDir ++ ["myplugin.smx"], "newplug"),
    (pluginDir ++ ["new.smx"], "brand")],
   [[], ["addons"], smPath, smPath ++ ["bin"], smPath ++ ["configs"],
    smPath ++ ["configs", "geoip"], smPath ++ ["scripting"], pluginDir]⟩

/-- An example existing installation: stale binaries, an extra
scripting file, one enabled plugin and one disabled plugin. -/
def tgtEx : FS :=
  ⟨[(smPath ++ ["bin", "sourcemod.dll"], "oldbin"),
    (smPath ++ ["bin", "stale.dll"], "stale"),
    (smPath ++ ["scripting", "keep.sp"], "keep"),
    (pluginDir ++ ["myplugin.smx"], "oldplug"),
    (disabledDir ++ ["old.smx"], "oldoff")],
   [[], ["addons"], smPath, smPath ++ ["bin"], smPath ++ ["scripting"],
    pluginDir, disabledDir]⟩

/-- An empty target directory (no existing installation). -/
def fsEmpty : FS := ⟨[], [[]]⟩

/-- A target with an existing installation whose `plugins` tree has no
`disabled` subdirectory. -/
def tgtNoDisabled : FS :=
  ⟨[(pluginDir ++ ["a.smx"], "a")], [[], ["addons"], smPath, pluginDir]⟩

/-- A package introducing a plugin name unknown to `tgtNoDisabled`. -/
def pkgNewPlugin : FS :=
  ⟨[(pluginDir ++ ["fresh.smx"], "f")], [[], ["addons"], smPath, pluginDir]⟩

/-- A target with an existing installation holding only a binary. -/
def tgtWithBin : FS :=
  ⟨[(smPath ++ ["bin", "sourcemod.dll"], "x")],
   [[], ["addons"], smPath, smPath ++ ["bin"]]⟩

/-! ## Claims -/

/-- C2: for every policy entry of mode REPLACE (`bin/` and
`configs/geoip/`), the upgrade deletes the destination subtree (a
no-op if absent), skips the copy when the package lacks the subtree,
and otherwise copies the package subtree in verbatim: after a
successful `replaceEntry`, the destination subtree contents equal
exactly the package subtree contents (no leftover prior files), and
paths outside the subtree are untouched. -/
theorem replace_entry_exact (pkg tgt t' : FS) (sd : FsPath)
    (_hsd : sd ∈ replaceSubdirs) (hwp : pkg.Wf) (hwt : tgt.Wf)
    (h : replaceEntry pkg tgt sd = some t') :
    (∀ rest, t'.getFile (sd ++ rest) = pkg.getFile (sd ++ rest))
    ∧ (∀ q, sd.isPrefixOf q = false → t'.getFile q = tgt.getFile q) := by
  unfold replaceEntry at h
  by_cases hex : tgt.pathExists sd = true
  · rw [if_pos hex] at h
    cases hrm : rmtree tgt sd with
    | none => rw [hrm] at h; exact absurd h (by simp)
    | some t1 =>
      rw [hrm, Option.some_bind] at h
      have ht1 := rmtree_getFile tgt sd t1 hrm
      by_cases hpex : pkg.pathExists sd = true
      · rw [if_pos hpex] at h
        constructor
        · intro rest
          cases hpg : pkg.getFile (sd ++ rest) with
          | some c =>
            exact copytree_getFile_src pkg sd t1 sd false t' h hwp.nodupPaths rest c hpg
          | none =>
            rw [copytree_getFile_untouched pkg sd t1 sd false t' h (sd ++ rest)
              (fun r' hr' => by
                have : r' = rest := List.append_cancel_left hr'.symm
                rw [this, hpg])]
            rw [ht1 (sd ++ rest), if_pos (isPrefixOf_append sd rest)]
        · intro q hq
          rw [copytree_getFile_untouched pkg sd t1 sd false t' h q
            (fun r' hr' => by
              rw [hr', isPrefixOf_append] at hq
              exact absurd hq (by simp))]
          rw [ht1 q, if_neg (by rw [hq]; exact (by simp))]
      · rw [if_neg hpex] at h
        have ht' : t' = t1 := by
          injection h with h
          exact h.symm
        subst ht'
        have hpex' : pkg.pathExists sd = false := by
          rw [← Bool.not_eq_true]
          exact hpex
        constructor
        · intro rest
          rw [ht1 (sd ++ rest), if_pos (isPrefixOf_append sd rest),
            hwp.no_file_under_of_not_exists sd hpex' rest]
        · intro q hq
          rw [ht1 q, if_neg (by rw [hq]; exact (by simp))]
  · rw [if_neg hex, Option.some_bind] at h
    have hex' : tgt.pathExists sd = false := by
      rw [← Bool.not_eq_true]
      exact hex
    by_cases hpex : pkg.pathExists sd = true
    · rw [if_pos hpex] at h
      constructor
      · intro rest
        cases hpg : pkg.getFile (sd ++ rest) with
        | some c =>
          exact copytree_getFile_src pkg sd tgt sd false t' h hwp.nodupPaths rest c hpg
        | none =>
          rw [copytree_getFile_untouched pkg sd tgt sd false t' h (sd ++ rest)
            (fun r' hr' => by
              have : r' = rest := List.append_cancel_left hr'.symm
              rw [this, hpg])]
          rw [hwt.no_file_under_of_not_exists sd hex' rest]
      · intro q hq
        rw [copytree_getFile_untouched pkg sd tgt sd false t' h q
          (fun r' hr' => by
            rw [hr', isPrefixOf_append] at hq
            exact absurd hq (by simp))]
    · rw [if_neg hpex] at h
      have ht' : t' = tgt := by
        injection h with h
        exact h.symm
      subst ht'
      have hpex' : pkg.pathExists sd = false := by
        rw [← Bool.not_eq_true]
        exact hpex
      constructor
      · intro rest
        rw [hwt.no_file_under_of_not_exists sd hex' rest,
          hwp.no_file_under_of_not_exists sd hpex' rest]
      · intro q hq
        rfl

/-- Witness for C2: replacing `bin/` on the example trees removes the
stale binary that the package does not ship. -/
theorem replace_entry_exact_witness :
    ((replaceEntry pkgEx tgtEx (smPath ++ ["bin"])).get (by decide)).getFile
      (smPath ++ ["bin"] ++ ["stale.dll"]) = none := by
  have h := replace_entry_exact pkgEx tgtEx
    ((replaceEntry pkgEx tgtEx (smPath ++ ["bin"])).get (by decide))
    (smPath ++ ["bin"]) (by decide) (by decide) (by decide)
    (Option.some_get _).symm
  rw [h.1 ["stale.dll"]]
  decide

/-- C3: for every policy entry of mode MERGE, after a successful
`mergeEntry` the destination subtree is a superset of the package
subtree by relative path (same-named files overwritten with the
package version), every pre-existing file not present in the package
subtree is retained unchanged, and an absent source subtree is a
silent no-op, not an error. -/
theorem merge_entry_superset_retain (pkg tgt t' : FS) (sd : FsPath)
    (_hsd : sd ∈ mergeSubdirs) (hwp : pkg.Wf)
    (h : mergeEntry pkg tgt sd = some t') :
    (∀ rest c, pkg.getFile (sd ++ rest) = some c →
      t'.getFile (sd ++ rest) = some c)
    ∧ (∀ q c, tgt.getFile q = some c →
        (∀ rest, q = sd ++ rest → pkg.getFile (sd ++ rest) = none) →
        t'.getFile q = some c)
    ∧ (pkg.pathExists sd = false → t' = tgt) := by
  unfold mergeEntry at h
  by_cases hpex : pkg.pathExists sd = true
  · rw [if_pos hpex] at h
    refine ⟨?_, ?_, ?_⟩
    · intro rest c hc
      exact copytree_getFile_src pkg sd tgt sd true t' h hwp.nodupPaths rest c hc
    · intro q c hc hq
      rw [copytree_getFile_untouched pkg sd tgt sd true t' h q hq]
      exact hc
    · intro hpex'
      rw [hpex] at hpex'
      exact absurd hpex' (by simp)
  · rw [if_neg hpex] at h
    have ht' : t' = tgt := by
      injection h with h
      exact h.symm
    subst ht'
    have hpex' : pkg.pathExists sd = false := by
      rw [← Bool.not_eq_true]
      exact hpex
    refine ⟨?_, ?_, fun _ => rfl⟩
    · intro rest c hc
      rw [hwp.no_file_under_of_not_exists sd hpex' rest] at hc
      exact absurd hc (by simp)
    · intro q c hc hq
      exact hc

/-- Witness for C3: merging `scripting/` on the example trees keeps
the pre-existing file the package does not ship. -/
theorem merge_entry_superset_retain_witness :
    ((mergeEntry pkgEx tgtEx (smPath ++ ["scripting"])).get (by decide)).getFile
      (smPath ++ ["scripting"] ++ ["keep.sp"]) = some "keep" := by
  have h := merge_entry_superset_retain pkgEx tgtEx
    ((mergeEntry pkgEx tgtEx (smPath ++ ["scripting"])).get (by decide))
    (smPath ++ ["scripting"]) (by decide) (by decide) (Option.some_get _).symm
  refine h.2.1 (smPath ++ ["scripting"] ++ ["keep.sp"]) "keep" (by decide) ?_
  intro rest hrest
  have : ["keep.sp"] = rest := List.append_cancel_left hrest
  rw [← this]
  decide

/-- C4: on a first install (the installation root `addons/sourcemod`
is absent under the target), granting consent runs the full-tree copy
of the package into the target and exits with status 0 (every package
file lands at its package-relative location); declining consent, or an
indeterminate response from a non-interactive session or invalid
input, exits with status 1 and performs no filesystem mutation (the
target is returned unchanged). -/
theorem first_install_gate (pkg tgt : FS) (f : Bool) (ro mo : List FsPath)
    (h1 : tgt.pathExists smPath = false) (hwp : pkg.Wf)
    (hlic : ∃ s, pkg.getFile (smPath ++ ["LICENSE.txt"]) = some s) :
    (∀ t', copytree pkg [] tgt [] true = some t' →
      runMain pkg tgt .yes f ro mo = some (t', 0)
      ∧ ∀ p c, pkg.getFile p = some c → t'.getFile p = some c)
    ∧ (∀ c, c ≠ Consent.yes → runMain pkg tgt c f ro mo = some (tgt, 1)) := by
  obtain ⟨s, hs⟩ := hlic
  constructor
  · intro t' hct
    constructor
    · rw [runMain_first_install pkg tgt .yes f ro mo h1 s hs, hct]
      rfl
    · intro p c hpc
      have := copytree_getFile_src pkg [] tgt [] true t' hct hwp.nodupPaths p c
        (by rw [List.nil_append]; exact hpc)
      rwa [List.nil_append] at this
  · intro c hc
    rw [runMain_first_install pkg tgt c f ro mo h1 s hs]
    cases c with
    | yes => exact absurd rfl hc
    | no => rfl
    | invalid => rfl

/-- Witness for C4: on an empty target, declining the license leaves
the target unchanged with exit status 1, and granting it performs the
full copy with exit status 0. -/
theorem first_install_gate_witness :
    runMain pkgEx fsEmpty .no false replaceSubdirs mergeSubdirs = some (fsEmpty, 1)
    ∧ runMain pkgEx fsEmpty .yes false replaceSubdirs mergeSubdirs
        = some ((copytree pkgEx [] fsEmpty [] true).get (by decide), 0) := by
  have h := first_install_gate pkgEx fsEmpty false replaceSubdirs mergeSubdirs
    (by decide) (by decide) ⟨"license", by decide⟩
  exact ⟨h.2 .no (by decide), (h.1 _ (Option.some_get _).symm).1⟩

/-- C10: on a first install with consent granted, `runMain` performs
exactly the full-tree copy and exits with status 0; the
`--no-upgrade-plugins` flag is irrelevant because the result does not
depend on it (the process exits before the plugin-routing step), and
every plugin file of the package is copied to its package-relative
location (so top-level plugins install enabled rather than being
routed to `disabled`). -/
theorem first_install_full_copy (pkg tgt : FS) (ro mo : List FsPath)
    (h1 : tgt.pathExists smPath = false) (hwp : pkg.Wf)
    (hlic : ∃ s, pkg.getFile (smPath ++ ["LICENSE.txt"]) = some s) :
    (∀ b : Bool, runMain pkg tgt .yes b ro mo
      = (copytree pkg [] tgt [] true).map (fun t => (t, 0)))
    ∧ (∀ t', copytree pkg [] tgt [] true = some t' →
        ∀ p ∈ smxPaths pkg pluginDir, ∀ c, pkg.getFile p = some c →
          t'.getFile p = some c) := by
  obtain ⟨s, hs⟩ := hlic
  constructor
  · intro b
    rw [runMain_first_install pkg tgt .yes b ro mo h1 s hs]
  · intro t' hct p hp c hpc
    have := copytree_getFile_src pkg [] tgt [] true t' hct hwp.nodupPaths p c
      (by rw [List.nil_append]; exact hpc)
    rwa [List.nil_append] at this

/-- Witness for C10: on an empty target the two flag settings produce
the same result, and the package plugin `new.smx` is installed at its
package-relative (top-level, enabled) location. -/
theorem first_install_full_copy_witness :
    runMain pkgEx fsEmpty .yes true replaceSubdirs mergeSubdirs
      = runMain pkgEx fsEmpty .yes false replaceSubdirs mergeSubdirs
    ∧ ((copytree pkgEx [] fsEmpty [] true).get (by decide)).getFile
        (pluginDir ++ ["new.smx"]) = some "brand" := by
  have h := first_install_full_copy pkgEx fsEmpty replaceSubdirs mergeSubdirs
    (by decide) (by decide) ⟨"license", by decide⟩
  constructor
  · rw [h.1 true, h.1 false]
  · exact h.2 _ (Option.some_get _).symm (pluginDir ++ ["new.smx"]) (by decide)
      "brand" (by decide)

/-- C7 (counterexample): a package that lacks the root subpath
`addons/sourcemod` is NOT rejected on the upgrade path: the run
completes with exit status 0 and still mutates the target — the
pre-existing `bin/` subtree is deleted. -/
theorem invalid_package_upgrade_counterexample :
    fsEmpty.pathExists smPath = false
    ∧ tgtWithBin.pathExists smPath = true
    ∧ fsEmpty.getFile (smPath ++ ["LICENSE.txt"]) = none
    ∧ tgtWithBin.getFile (smPath ++ ["bin", "sourcemod.dll"]) = some "x"
    ∧ runMain fsEmpty tgtWithBin .no false replaceSubdirs mergeSubdirs
        = some (⟨[], [[], ["addons"], smPath]⟩, 0) := by
  decide

/-- C7 (amended): package validation only happens incidentally on the
first-install path: when no installation exists under the target and
the package lacks `addons/sourcemod`, opening the license file fails,
so the run aborts (uncaught exception) before any mutation of the
target; the upgrade path performs no such validation. -/
theorem invalid_package_first_install_fatal (pkg tgt : FS) (c : Consent) (f : Bool)
    (ro mo : List FsPath) (hwp : pkg.Wf)
    (hroot : pkg.pathExists smPath = false)
    (h1 : tgt.pathExists smPath = false) :
    runMain pkg tgt c f ro mo = none := by
  have hnone : pkg.getFile (smPath ++ ["LICENSE.txt"]) = none :=
    hwp.no_file_under_of_not_exists smPath hroot ["LICENSE.txt"]
  unfold runMain
  rw [h1, hnone]
  rfl

/-- Witness for the amended C7. -/
theorem invalid_package_first_install_fatal_witness :
    runMain fsEmpty fsEmpty .yes false replaceSubdirs mergeSubdirs = none :=
  invalid_package_first_install_fatal fsEmpty fsEmpty .yes false
    replaceSubdirs mergeSubdirs (by decide) (by decide) (by decide)

theorem filterMap_repPath_map_rep (l : List FsPath) :
    (l.map PhaseOp.rep).filterMap PhaseOp.repPath = l := by
  rw [List.filterMap_map]
  exact List.filterMap_some l

theorem filterMap_repPath_map_mer (l : List FsPath) :
    (l.map PhaseOp.mer).filterMap PhaseOp.repPath = [] := by
  rw [List.filterMap_map]
  exact List.filterMap_eq_nil_iff.2 (fun a _ => rfl)

theorem filterMap_merPath_map_mer (l : List FsPath) :
    (l.map PhaseOp.mer).filterMap PhaseOp.merPath = l := by
  rw [List.filterMap_map]
  exact List.filterMap_some l

theorem filterMap_merPath_map_rep (l : List FsPath) :
    (l.map PhaseOp.rep).filterMap PhaseOp.merPath = [] := by
  rw [List.filterMap_map]
  exact List.filterMap_eq_nil_iff.2 (fun a _ => rfl)

/-- C5 (counterexample): the two policy loops iterate over Python set
literals, whose iteration order is unspecified (string hashing is
randomized), so the entries are NOT guaranteed to be processed in the
written order: a legal iteration order of the REPLACE set yields a
different operation sequence than the claimed original order. -/
theorem upgrade_order_counterexample :
    ([smPath ++ ["configs", "geoip"], smPath ++ ["bin"]].Perm replaceSubdirs)
    ∧ upgradeTrace [smPath ++ ["configs", "geoip"], smPath ++ ["bin"]]
        mergeSubdirs false
      ≠ upgradeTrace replaceSubdirs mergeSubdirs false := by
  decide

/-- C5 (amended): for every iteration order of the two policy sets
(any permutation of the written entries), the upgrade processes
exactly the table entries — all REPLACE entries strictly before every
MERGE entry and before plugin routing — but within each phase only in
some unspecified permutation of the written order. -/
theorem upgrade_phase_order (ro mo : List FsPath) (noUp : Bool)
    (h1 : ro.Perm replaceSubdirs) (h2 : mo.Perm mergeSubdirs) :
    ((upgradeTrace ro mo noUp).filterMap PhaseOp.repPath).Perm replaceSubdirs
    ∧ ((upgradeTrace ro mo noUp).filterMap PhaseOp.merPath).Perm mergeSubdirs
    ∧ ∀ (i j : Nat) (op1 op2 : PhaseOp), (upgradeTrace ro mo noUp)[i]? = some op1 →
        (upgradeTrace ro mo noUp)[j]? = some op2 →
        op1.isRep = true → op2.isRep = false → i < j := by
  refine ⟨?_, ?_, ?_⟩
  · rw [upgradeTrace, List.filterMap_append, List.filterMap_append,
      filterMap_repPath_map_rep, filterMap_repPath_map_mer]
    have htail : (if noUp then ([] : List PhaseOp)
        else [PhaseOp.route]).filterMap PhaseOp.repPath = [] := by
      cases noUp <;> rfl
    rw [htail]
    simp only [List.append_nil, List.nil_append]
    exact h1
  · rw [upgradeTrace, List.filterMap_append, List.filterMap_append,
      filterMap_merPath_map_rep, filterMap_merPath_map_mer]
    have htail : (if noUp then ([] : List PhaseOp)
        else [PhaseOp.route]).filterMap PhaseOp.merPath = [] := by
      cases noUp <;> rfl
    rw [htail]
    simp only [List.append_nil, List.nil_append]
    exact h2
  · intro i j op1 op2 hi hj hrep hnotrep
    have hilen : i < ro.length := by
      by_contra hge
      push_neg at hge
      rw [upgradeTrace, List.append_assoc,
        List.getElem?_append_right (by simpa using hge)] at hi
      have hmem : op1 ∈ mo.map PhaseOp.mer
          ++ (if noUp then [] else [PhaseOp.route]) := by
        obtain ⟨hlt, hget⟩ := List.getElem?_eq_some.1 hi
        rw [← hget]
        exact List.getElem_mem hlt
      rcases List.mem_append.1 hmem with hm | hm
      · obtain ⟨x, -, hx⟩ := List.mem_map.1 hm
        rw [← hx] at hrep
        exact absurd hrep (by simp [PhaseOp.isRep])
      · cases noUp with
        | true => simp at hm
        | false =>
          have : op1 = PhaseOp.route := by simpa using hm
          rw [this] at hrep
          exact absurd hrep (by simp [PhaseOp.isRep])
    have hjlen : ro.length ≤ j := by
      by_contra hlt
      push_neg at hlt
      rw [upgradeTrace, List.append_assoc,
        List.getElem?_append_left (by simpa using hlt)] at hj
      have hmem : op2 ∈ ro.map PhaseOp.rep := by
        obtain ⟨hlt', hget⟩ := List.getElem?_eq_some.1 hj
        rw [← hget]
        exact List.getElem_mem hlt'
      obtain ⟨x, -, hx⟩ := List.mem_map.1 hmem
      rw [← hx] at hnotrep
      exact absurd hnotrep (by simp [PhaseOp.isRep])
    exact lt_of_lt_of_le hilen hjlen

/-- Witness for the amended C5: at the written iteration orders, the
trace consists of the table entries, and the REPLACE operation at
position 0 precedes the MERGE operation at position 2. -/
theorem upgrade_phase_order_witness :
    (upgradeTrace replaceSubdirs mergeSubdirs false)[0]?
        = some (PhaseOp.rep (smPath ++ ["bin"]))
    ∧ (upgradeTrace replaceSubdirs mergeSubdirs false)[2]?
        = some (PhaseOp.mer (smPath ++ ["configs", "sql-init-scripts"]))
    ∧ ((upgradeTrace replaceSubdirs mergeSubdirs false).filterMap
        PhaseOp.repPath).Perm replaceSubdirs
    ∧ (0 : Nat) < 2 := by
  have h := upgrade_phase_order replaceSubdirs mergeSubdirs false
    (List.Perm.refl _) (List.Perm.refl _)
  refine ⟨by decide, by decide, h.1, ?_⟩
  exact h.2.2 0 2 (PhaseOp.rep (smPath ++ ["bin"]))
    (PhaseOp.mer (smPath ++ ["configs", "sql-init-scripts"]))
    (by decide) (by decide) (by decide) (by decide)

/-- C6 (counterexample): the implementation does not create
`plugins/disabled`.  On an upgrade of a target whose plugins tree
lacks the `disabled` subdirectory, routing a newly introduced plugin
fails (uncaught exception from the single-file copy) precisely for
lack of the destination directory. -/
theorem disabled_dir_counterexample :
    tgtNoDisabled.pathExists smPath = true
    ∧ tgtNoDisabled.isDir disabledDir = false
    ∧ runMain pkgNewPlugin tgtNoDisabled .no false replaceSubdirs mergeSubdirs
        = none := by
  decide

/-- C6 (amended): routing never creates any directory; when it
succeeds and the package introduced a plugin whose filename is absent
from the Installed-Plugin Index, the `plugins/disabled` directory must
already have existed in the target before routing. -/
theorem route_requires_existing_disabled (pkg tgt t' : FS)
    (h : routeAll pkg tgt = some t') (p : FsPath)
    (hp : p ∈ smxPaths pkg pluginDir)
    (hnew : indexLookup (installedPluginIndex tgt) (fileName p) = none) :
    tgt.isDir disabledDir = true ∧ t'.dirs = tgt.dirs := by
  have hsmx : ∀ r ∈ smxPaths pkg pluginDir, isSmxName (fileName r) = true :=
    fun r hr => (mem_smxPaths pkg pluginDir r hr).2.2.2
  obtain ⟨hdirs, -, -, h4⟩ := routeFold_spec pkg (installedPluginIndex tgt)
    (smxPaths pkg pluginDir) tgt t' hsmx
    (fun n d hl => installedIndex_mem tgt n d hl) h
  exact ⟨(tgt.isDir_iff_mem disabledDir).2 (h4 ⟨p, hp, hnew⟩), hdirs⟩

/-- Witness for the amended C6: on the example trees, routing the new
plugin succeeds, so `disabled` existed beforehand and no directory was
created. -/
theorem route_requires_existing_disabled_witness :
    tgtEx.isDir disabledDir = true
    ∧ ((routeAll pkgEx tgtEx).get (by decide)).dirs = tgtEx.dirs :=
  route_requires_existing_disabled pkgEx tgtEx
    ((routeAll pkgEx tgtEx).get (by decide)) (Option.some_get _).symm
    (pluginDir ++ ["new.smx"]) (by decide) (by decide)

/-- C8: `--archive` naming a missing local path is NOT fatal and does
not avoid the network: the acquisition stage falls through to the
download branch, issues the network request and proceeds with the
downloaded package; only an existing path that is neither a regular
file nor a directory reaches the exit-1 "no archive" branch. -/
theorem missing_archive_uses_network :
    acquire (some ArchivePathState.absent) = ⟨true, true⟩
    ∧ acquire (some ArchivePathState.special) = ⟨false, false⟩
    ∧ acquire (some ArchivePathState.file) = ⟨false, true⟩
    ∧ acquire (some ArchivePathState.dir) = ⟨false, true⟩ :=
  ⟨rfl, rfl, rfl, rfl⟩

/-- C1: each plugin file of the package plugins tree is paired in the
routing plan with the directory recorded under its filename in the
Installed-Plugin Index when the filename is present (so the plugin
keeps its previously chosen enabled or disabled location), and with
`<pluginsRoot>/disabled` when the filename is absent from the index;
execution is a plain single-file overwrite at the destination: paths
other than planned destinations are untouched, and the destination of
a uniquely named plugin ends up holding exactly the package contents
of that plugin. -/
theorem plugin_route_spec (pkg tgt : FS) (p : FsPath)
    (hp : p ∈ smxPaths pkg pluginDir) :
    ((p, routeDest tgt (fileName p)) ∈ routePlan pkg tgt)
    ∧ (∀ d, indexLookup (installedPluginIndex tgt) (fileName p) = some d →
        routeDest tgt (fileName p) = d
        ∧ ∃ e ∈ smxPaths tgt pluginDir, fileName e = fileName p ∧ e.dropLast = d)
    ∧ (indexLookup (installedPluginIndex tgt) (fileName p) = none →
        routeDest tgt (fileName p) = disabledDir
        ∧ ∀ e ∈ smxPaths tgt pluginDir, fileName e ≠ fileName p)
    ∧ (∀ t', routeAll pkg tgt = some t' →
        (∀ q, (∀ r ∈ smxPaths pkg pluginDir,
            q ≠ routeDest tgt (fileName r) ++ [fileName r]) →
          t'.getFile q = tgt.getFile q)
        ∧ ((∀ r ∈ smxPaths pkg pluginDir, fileName r = fileName p → r = p) →
          t'.getFile (routeDest tgt (fileName p) ++ [fileName p])
            = pkg.getFile p)) := by
  refine ⟨?_, ?_, ?_, ?_⟩
  · exact List.mem_map_of_mem (fun r => (r, routeDest tgt (fileName r))) hp
  · intro d hd
    refine ⟨by rw [routeDest, hd]; rfl, installedIndex_some tgt (fileName p) d hd⟩
  · intro hnone
    exact ⟨by rw [routeDest, hnone]; rfl, installedIndex_none tgt (fileName p) hnone⟩
  · intro t' h
    constructor
    · intro q hq
      exact routeFold_locality pkg (installedPluginIndex tgt)
        (smxPaths pkg pluginDir) tgt t' h q hq
    · intro huniq
      exact routeFold_content pkg (installedPluginIndex tgt)
        (smxPaths pkg pluginDir) tgt t' h p hp huniq

/-- Witness for C1: on the example trees, `myplugin.smx` routes to its
recorded (enabled) directory and ends up holding the package
contents. -/
theorem plugin_route_spec_witness :
    ((pluginDir ++ ["myplugin.smx"], pluginDir) ∈ routePlan pkgEx tgtEx)
    ∧ ((routeAll pkgEx tgtEx).get (by decide)).getFile
        (pluginDir ++ ["myplugin.smx"]) = some "newplug" := by
  have h := plugin_route_spec pkgEx tgtEx (pluginDir ++ ["myplugin.smx"]) (by decide)
  constructor
  · have h1 := h.1
    rwa [show routeDest tgtEx (fileName (pluginDir ++ ["myplugin.smx"]))
      = pluginDir from by decide] at h1
  · have h4 := (h.2.2.2 ((routeAll pkgEx tgtEx).get (by decide))
      (Option.some_get _).symm).2 (by decide)
    rw [show routeDest tgtEx (fileName (pluginDir ++ ["myplugin.smx"]))
        ++ [fileName (pluginDir ++ ["myplugin.smx"])]
      = pluginDir ++ ["myplugin.smx"] from by decide] at h4
    rw [h4]
    decide

/-- C9: plugin routing is idempotent: after a successful routing run,
re-computing the routing plan for the same (unchanged) package against
the updated target yields the very same destination for every plugin
file. -/
theorem plugin_route_idempotent (pkg tgt t' : FS)
    (h : routeAll pkg tgt = some t') :
    routePlan pkg t' = routePlan pkg tgt := by
  have hsmx : ∀ r ∈ smxPaths pkg pluginDir, isSmxName (fileName r) = true :=
    fun r hr => (mem_smxPaths pkg pluginDir r hr).2.2.2
  obtain ⟨hdirs, ⟨app, happ, hspec⟩, -, -⟩ := routeFold_spec pkg
    (installedPluginIndex tgt) (smxPaths pkg pluginDir) tgt t' hsmx
    (fun n d hl => installedIndex_mem tgt n d hl) h
  rw [routePlan, routePlan]
  apply List.map_congr_left
  intro p hp
  suffices hsuf : routeDest t' (fileName p) = routeDest tgt (fileName p) by
    rw [hsuf]
  have hT' : smxPaths t' pluginDir
      = (tgt.filePaths.filter (fun q => pluginDir.isPrefixOf q
          && decide (pluginDir.length < q.length) && isSmxName (fileName q)))
        ++ ((app.filter (fun q => pluginDir.isPrefixOf q
          && decide (pluginDir.length < q.length) && isSmxName (fileName q)))
        ++ (tgt.dirs.filter (fun q => pluginDir.isPrefixOf q
          && decide (pluginDir.length < q.length) && isSmxName (fileName q)))) := by
    rw [smxPaths, happ, hdirs, List.append_assoc, List.filter_append,
      List.filter_append]
  have hT : smxPaths tgt pluginDir
      = (tgt.filePaths.filter (fun q => pluginDir.isPrefixOf q
          && decide (pluginDir.length < q.length) && isSmxName (fileName q)))
        ++ (tgt.dirs.filter (fun q => pluginDir.isPrefixOf q
          && decide (pluginDir.length < q.length) && isSmxName (fileName q))) := by
    rw [smxPaths, List.filter_append]
  rw [routeDest, routeDest, installedPluginIndex_lookup,
    installedPluginIndex_lookup, hT', hT]
  rw [List.reverse_append, List.reverse_append, List.reverse_append,
    List.find?_append, List.find?_append, List.find?_append]
  cases hD : (tgt.dirs.filter (fun q => pluginDir.isPrefixOf q
      && decide (pluginDir.length < q.length)
      && isSmxName (fileName q))).reverse.find?
      (fun e => fileName e == fileName p) with
  | some e => rfl
  | none =>
    rw [Option.none_or, Option.none_or]
    cases hF : (tgt.filePaths.filter (fun q => pluginDir.isPrefixOf q
        && decide (pluginDir.length < q.length)
        && isSmxName (fileName q))).reverse.find?
        (fun e => fileName e == fileName p) with
    | some e =>
      have hA : (app.filter (fun q => pluginDir.isPrefixOf q
          && decide (pluginDir.length < q.length)
          && isSmxName (fileName q))).reverse.find?
          (fun e => fileName e == fileName p) = none := by
        rw [List.find?_eq_none]
        intro x hx hb
        have hxa : x ∈ app :=
          List.mem_of_mem_filter (List.mem_reverse.1 hx)
        have hxn : fileName x = fileName p := by simpa using hb
        have := (hspec x hxa).2.1
        rw [hxn] at this
        rw [installedPluginIndex_lookup, hT, List.reverse_append,
          List.find?_append, hD, Option.none_or, hF] at this
        exact absurd this (by simp)
      rw [hA]
      rfl
    | none =>
      cases hA : (app.filter (fun q => pluginDir.isPrefixOf q
          && decide (pluginDir.length < q.length)
          && isSmxName (fileName q))).reverse.find?
          (fun e => fileName e == fileName p) with
      | none => rfl
      | some a =>
        have hma := List.mem_of_find?_eq_some hA
        have ha : a ∈ app := List.mem_of_mem_filter (List.mem_reverse.1 hma)
        have hform := (hspec a ha).1
        have hdl : a.dropLast = disabledDir := by
          rw [hform, List.dropLast_concat]
        simp [hdl]

/-- Witness for C9: routing the example package twice plans identical
destinations the second time. -/
theorem plugin_route_idempotent_witness :
    routePlan pkgEx ((routeAll pkgEx tgtEx).get (by decide))
      = routePlan pkgEx tgtEx :=
  plugin_route_idempotent pkgEx tgtEx ((routeAll pkgEx tgtEx).get (by decide))
    (Option.some_get _).symm

end SMInstaller
